import Mathlib

/-!
Verification of the CDC field-exclude validation script
(`scripts/validate_cdc_excludes.py`).

Python strings are modelled as `List Char` (ASCII model: the `\w` regex
class is modelled as ASCII letters/digits/underscore, `\s` as the six ASCII
whitespace characters, and `str.upper`/`str.lower` and `re.IGNORECASE` act
on the basic latin letters only, exactly as Lean's `Char.toUpper`/`Char.toLower`
do).  Every regex used by the script is simple enough that its
leftmost/greedy matching semantics are implemented directly as a
deterministic scanner; the correspondence is argued in the doc comment of
each definition.
-/

/-- Python strings, modelled as lists of characters. -/
abbrev Str := List Char

/-- The `\s` regex class (ASCII): space, tab, newline, carriage return,
vertical tab, form feed. -/
def isWs (c : Char) : Bool :=
  c == ' ' || c == '\t' || c == '\n' || c == '\r' || c == '\x0b' || c == '\x0c'

/-- The `\w` regex class (ASCII): letters, digits, underscore. -/
def isWordChar (c : Char) : Bool :=
  c.isAlphanum || c == '_'

/-- The character class `[\w\.\*]` used by the script's TABLE-statement
pattern: word characters, dot, and asterisk. -/
def isTChar (c : Char) : Bool :=
  isWordChar c || c == '.' || c == '*'

/-- The character class `[\w\.]` used by the script's table-name capture
pattern: word characters and dot (no asterisk). -/
def isIdChar (c : Char) : Bool :=
  isWordChar c || c == '.'

/-- The character class `[^,\s]` used by the COLEXC pattern: anything but a
comma or whitespace. -/
def isExcChar (c : Char) : Bool :=
  !(c == ',') && !(isWs c)

/-- Case-insensitive character equality, as `re.IGNORECASE` compares ASCII
letters. -/
def ciEq (a b : Char) : Bool :=
  a.toLower == b.toLower

/-- `ciPrefixB p s`: the literal `p` matches at the start of `s`,
case-insensitively. -/
def ciPrefixB : Str → Str → Bool
  | [], _ => true
  | _ :: _, [] => false
  | a :: p, b :: s => ciEq a b && ciPrefixB p s

/-- ASCII model of Python `str.upper`. -/
def pyUpper (s : Str) : Str := s.map Char.toUpper

/-- ASCII model of Python `str.strip()`: remove leading and trailing
whitespace. -/
def pyStrip (s : Str) : Str :=
  ((s.dropWhile isWs).reverse.dropWhile isWs).reverse

/-- The literal `TABLE` of the script's patterns. -/
def tKW : Str := "TABLE".data

/-- The literal `COLEXC` of the script's pattern. -/
def cKW : Str := "COLEXC".data

/-- One attempted match of the pattern `TABLE\s+[\w\.\*]+[^\n]*`
(case-insensitive) at the start of `s`.  The regex backtracking collapses:
`\s+` must take the maximal whitespace run (a shorter run would leave a
whitespace character for `[\w\.\*]+`, which contains no whitespace), then
`[\w\.\*]+` and `[^\n]*` are greedy with nothing after them.  On success
returns the matched substring and the remainder of `s` after the match. -/
def tableMatchSplit (s : Str) : Option (Str × Str) :=
  if ciPrefixB tKW s then
    let w := (s.drop 5).takeWhile isWs
    let r1 := (s.drop 5).dropWhile isWs
    let idp := r1.takeWhile isTChar
    let r2 := r1.dropWhile isTChar
    if w.isEmpty || idp.isEmpty then none
    else some (s.take 5 ++ w ++ idp ++ r2.takeWhile (fun c => !(c == '\n')),
               r2.dropWhile (fun c => !(c == '\n')))
  else none

/-- Fuel-driven scanner implementing `re.finditer` with the pattern
`TABLE\s+[\w\.\*]+[^\n]*` (case-insensitive): scan left to right, emit the
leftmost match, continue after its end (non-overlapping, as `finditer`
does).  `fuel` only forces structural termination; `scanTables` supplies
enough of it. -/
def scanGo : Nat → Str → List Str
  | _, [] => []
  | 0, _ :: _ => []
  | fuel + 1, c :: rest =>
    match tableMatchSplit (c :: rest) with
    | some (m, r) => m :: scanGo fuel r
    | none => scanGo fuel rest

/-- All matches of the script's TABLE-statement pattern in `s`, in order. -/
def scanTables (s : Str) : List Str := scanGo s.length s

/-- One attempted match of `TABLE\s+([\w\.]+)` (case-insensitive) at the
start of `s`, returning the captured group.  As for `tableMatchSplit`,
backtracking of `\s+` cannot succeed where the maximal whitespace run
fails, and the capture `([\w\.]+)` is greedy. -/
def capAt (s : Str) : Option Str :=
  if ciPrefixB tKW s then
    let w := (s.drop 5).takeWhile isWs
    let idp := ((s.drop 5).dropWhile isWs).takeWhile isIdChar
    if w.isEmpty || idp.isEmpty then none else some idp
  else none

/-- `re.search` with the pattern `TABLE\s+([\w\.]+)` (case-insensitive):
try each position left to right, return the first capture. -/
def captureTableRef : Str → Option Str
  | [] => none
  | c :: rest =>
    match capAt (c :: rest) with
    | some g => some g
    | none => captureTableRef rest

/-- Helper for `pySplit`: first piece and remaining pieces. -/
def pySplitAux (sep : Char) : Str → Str × List Str
  | [] => ([], [])
  | c :: rest =>
    let (p, ps) := pySplitAux sep rest
    if c == sep then ([], p :: ps) else (c :: p, ps)

/-- Python `str.split(sep)` for a single-character separator: split on every
occurrence, keeping empty pieces.  The result is always non-empty. -/
def pySplit (sep : Char) (s : Str) : List Str :=
  let (p, ps) := pySplitAux sep s
  p :: ps

/-- Embedding of `CDCExcludeValidator.extract_table_name`: search for
`TABLE\s+([\w\.]+)`; on a capture, take the piece after the final dot when
the capture contains a dot (Python `table_ref.split('.')[-1]`), otherwise
the whole capture, and upper-case it.  Returns `""` (i.e. `[]`) when
nothing is captured. -/
def extract_table_name (table_statement : Str) : Str :=
  match captureTableRef table_statement with
  | some table_ref =>
    if '.' ∈ table_ref then pyUpper ((pySplit '.' table_ref).getLastD [])
    else pyUpper table_ref
  | none => []

/-- One attempted match of `COLEXC\s+[^,\s]*F[^,\s]*` (`F` the escaped
field name, `re.IGNORECASE`) at the start of `s`, rendered as the
backtracking existential: some split into at least one whitespace
character, then a run of non-comma/non-whitespace characters, then the
field literal (the trailing `[^,\s]*` can always match the empty string,
so it does not constrain existence). -/
def colexcAt (field s : Str) : Bool :=
  ciPrefixB cKW s &&
    (let r := s.drop 6
     (List.range (r.length + 1)).any fun k =>
       decide (1 ≤ k) && (r.take k).all isWs &&
         (let r2 := r.drop k
          (List.range (r2.length + 1)).any fun m =>
            (r2.take m).all isExcChar && ciPrefixB field (r2.drop m)))

/-- `re.search` of the script's COLEXC pattern over the full context:
true iff the pattern matches at some position. -/
def colexcFoundB (full_config field : Str) : Bool :=
  (List.range (full_config.length + 1)).any fun i =>
    colexcAt field (full_config.drop i)

/-- A located table declaration:
`(extract_name, table_statement, full_config)` exactly as the tuples built
by `extract_table_configs`. -/
abbrev TableDecl := Str × Str × Str

/-- The exclusion map `{table_name: [field_names]}` held in
`self.exclude_fields`, modelled as an insertion-ordered association list
(Python dicts preserve insertion order). -/
abbrev EMap := List (Str × List Str)

/-- The keys of an `EMap` (Python `table_name in self.exclude_fields`). -/
def keysOf (em : EMap) : List Str := em.map Prod.fst

/-- The field list stored for a table (Python
`self.exclude_fields[table_name]`), `[]` when absent. -/
def fieldsFor (em : EMap) (t : Str) : List Str :=
  match em with
  | [] => []
  | (k, fs) :: rest => if k = t then fs else fieldsFor rest t

/-- The validation errors the script appends to its `errors` list.  The
printed message is a fixed rendering of these fields
(`f"... {extract_name}: Could not extract table name from: {stmt}"` and
`f"... {extract_name}: Table {t} missing COLEXC for fields: {missing}"`),
so the structured form carries exactly the message's content. -/
inductive VErr where
  | couldNotExtract (extractName stmt : Str)
  | missingFields (extractName table : Str) (missing : List Str)
deriving DecidableEq, Repr

/-- The `missing_colexc` accumulation loop of
`validate_colexc_statements`: keep, in order, the required fields whose
COLEXC pattern does not match the full config text. -/
def missingColexcOf (full_config : Str) : List Str → List Str
  | [] => []
  | f :: rest =>
    if colexcFoundB full_config f then missingColexcOf full_config rest
    else f :: missingColexcOf full_config rest

/-- Embedding of `CDCExcludeValidator.validate_colexc_statements`: walk the
declaration list in order; an empty extracted table name records a
could-not-extract error and skips the declaration; a table present in the
exclusion map with a non-empty missing list records one missing-fields
error; otherwise nothing is recorded. -/
def validate_colexc_statements (em : EMap) : List TableDecl → List VErr
  | [] => []
  | (extract_name, table_statement, full_config) :: rest =>
    let tail := validate_colexc_statements em rest
    let table_name := extract_table_name table_statement
    if table_name = [] then .couldNotExtract extract_name table_statement :: tail
    else if table_name ∈ keysOf em then
      let missing := missingColexcOf full_config (fieldsFor em table_name)
      if missing = [] then tail
      else .missingFields extract_name table_name missing :: tail
    else tail

/-- One step of the grouping loop of `get_exclude_fields`: Python
`exclude_map.setdefault`-style insertion — a new table key is appended at
the end, an existing key's field list is extended in place. -/
def addRow (t f : Str) : EMap → EMap
  | [] => [(t, [f])]
  | (k, fs) :: rest =>
    if k = t then (k, fs ++ [f]) :: rest else (k, fs) :: addRow t f rest

/-- Embedding of `CDCExcludeValidator.get_exclude_fields` applied to a
query result set: upper-case both columns of each row and group by table
name, in row order. -/
def get_exclude_fields (rows : List (Str × Str)) : EMap :=
  rows.foldl (fun em row => addRow (pyUpper row.1) (pyUpper row.2) em) []

mutual
/-- A parsed JSON value as `json.load` produces it: a string, a
non-container primitive (number, boolean, null), an array, or an object
whose entries keep document order (Python dicts preserve insertion
order). -/
inductive JValue where
  | str : Str → JValue
  | prim : JValue
  | arr : JList → JValue
  | obj : JObj → JValue
/-- A JSON array, as an explicit cons list (so that mutual structural
recursion over the nested structure is available). -/
inductive JList where
  | nil : JList
  | cons : JValue → JList → JList
/-- A JSON object: ordered key/value entries. -/
inductive JObj where
  | nil : JObj
  | cons : Str → JValue → JObj → JObj
end

mutual
/-- Embedding of the inner closure `find_table_statements` of
`extract_table_configs`: depth-first walk; at every string leaf run the
TABLE-statement pattern and append one tuple
`(extract_name, match.group(0).strip(), obj)` per match; recurse into dict
values (in insertion order) and list items (in order); ignore other
values.  (The `prefix` argument of the Python closure only builds an
unused path string and is omitted.) -/
def findTableStatements (extract_name : Str) : JValue → List TableDecl
  | .str s => (scanTables s).map fun m => (extract_name, pyStrip m, s)
  | .prim => []
  | .arr xs => findTableStatementsL extract_name xs
  | .obj fs => findTableStatementsO extract_name fs
/-- `find_table_statements` over the items of a JSON array. -/
def findTableStatementsL (extract_name : Str) : JList → List TableDecl
  | .nil => []
  | .cons v rest =>
    findTableStatements extract_name v ++ findTableStatementsL extract_name rest
/-- `find_table_statements` over the values of a JSON object. -/
def findTableStatementsO (extract_name : Str) : JObj → List TableDecl
  | .nil => []
  | .cons _ v rest =>
    findTableStatements extract_name v ++ findTableStatementsO extract_name rest
end

/-- One entry of the top-level `extracts` list, per the documented input
format: an object with an optional `name` string and an optional `config`
value (`extract.get('name', 'UNKNOWN')` / `extract.get('config', {})`).
Other keys of the entry are never read. -/
structure Extract where
  name : Option Str
  config : Option JValue

/-- The parsed configuration document: its top-level `extracts` list
(`extract_config.get('extracts', [])`; an absent key is the empty
list). -/
structure ExtractCfg where
  extracts : List Extract

/-- The extract's name with the `'UNKNOWN'` placeholder default. -/
def nameD (e : Extract) : Str := e.name.getD "UNKNOWN".data

/-- The extract's config with the `{}` default. -/
def configD (e : Extract) : JValue := e.config.getD (.obj .nil)

/-- Embedding of `CDCExcludeValidator.extract_table_configs`: for each
extract entry, walk its entire `config` value with
`find_table_statements`, appending all found declarations in order.  (The
`config_sections` list the Python builds from the `raw_config` and
`parameters` keys is dead code — it is never scanned — so the recursive
walk is the only producer of tuples, and each string leaf is searched
exactly once.) -/
def extract_table_configs (cfg : ExtractCfg) : List TableDecl :=
  cfg.extracts.flatMap fun e => findTableStatements (nameD e) (configD e)

/-- Outcome of the environment-variable gate at the top of `main`. -/
inductive EnvGate where
  | abort (exitCode : Nat) (printed : List Str)
  | proceed (hostname httpPath token : Str)
deriving DecidableEq

/-- Python truthiness of `os.getenv`'s result: `None` and the empty string
are falsy. -/
def truthy : Option Str → Bool
  | none => false
  | some s => !s.isEmpty

/-- The fixed lines printed when `not all([...])` fires in `main`. -/
def missingEnvLines : List Str :=
  ["❌ Missing required Databricks environment variables:".data,
   "   - DATABRICKS_SERVER_HOSTNAME".data,
   "   - DATABRICKS_HTTP_PATH".data,
   "   - DATABRICKS_ACCESS_TOKEN".data]

/-- Embedding of the environment-variable check in `main`: if any of the
three variables is unset or empty, print the fixed four-line message and
`sys.exit(1)`; otherwise continue with the values. -/
def envGate (hostname httpPath token : Option Str) : EnvGate :=
  if truthy hostname && truthy httpPath && truthy token then
    .proceed (hostname.getD []) (httpPath.getD []) (token.getD [])
  else
    .abort 1 missingEnvLines

mutual
/-- Spec-side description of the walk: every string value reachable under a
config value, depth-first, regardless of key name. -/
def stringsUnder : JValue → List Str
  | .str s => [s]
  | .prim => []
  | .arr xs => stringsUnderL xs
  | .obj fs => stringsUnderO fs
/-- `stringsUnder` over array items. -/
def stringsUnderL : JList → List Str
  | .nil => []
  | .cons v rest => stringsUnder v ++ stringsUnderL rest
/-- `stringsUnder` over object values. -/
def stringsUnderO : JObj → List Str
  | .nil => []
  | .cons _ v rest => stringsUnder v ++ stringsUnderO rest
end

/-- Spec-side description of the Statement Extractor's output: one
declaration per pattern match per reachable string, carrying the extract's
name (or the placeholder), the stripped match, and the complete original
string. -/
def specTableDecls (cfg : ExtractCfg) : List TableDecl :=
  cfg.extracts.flatMap fun e =>
    (stringsUnder (configD e)).flatMap fun s =>
      (scanTables s).map fun m => (nameD e, pyStrip m, s)

/-- `p` occurs in `s` as a case-insensitive substring. -/
def ciSubstring (p s : Str) : Prop :=
  ∃ j, ciPrefixB p (s.drop j) = true

/-- Spec-side description of when a required field counts as present
(claim C3): at some position the context contains the exclusion keyword,
then at least one whitespace character (the run of `k` whitespace
characters lies entirely inside the string), then a run of
non-comma/non-whitespace characters that contains the field name as a
case-insensitive substring. -/
def specColexcPresent (full_config field : Str) : Prop :=
  ∃ i k m, 1 ≤ k ∧ i + 6 + k ≤ full_config.length ∧
    ciPrefixB cKW (full_config.drop i) = true ∧
    ((full_config.drop (i + 6)).take k).all isWs = true ∧
    ((full_config.drop (i + 6 + k)).take m).all isExcChar = true ∧
    ciSubstring field ((full_config.drop (i + 6 + k)).take m)

/-- Shape asserted by claim C5 for a matched substring: the keyword
(case-insensitively), whitespace, a non-empty identifier made only of
letters/digits/underscore/dot, then a remainder containing no newline. -/
def claimShapeB (m : Str) : Bool :=
  ciPrefixB tKW m &&
    (let r := m.drop 5
     (List.range (r.length + 1)).any fun k =>
       decide (1 ≤ k) && (r.take k).all isWs &&
         (let r2 := r.drop k
          (List.range (r2.length + 1)).any fun j =>
            decide (1 ≤ j) && (r2.take j).all isIdChar &&
              (r2.drop j).all fun c => !(c == '\n')))

/-- The same shape with the identifier class the code actually uses:
letters/digits/underscore/dot/asterisk (`[\w\.\*]`). -/
def codeShapeB (m : Str) : Bool :=
  ciPrefixB tKW m &&
    (let r := m.drop 5
     (List.range (r.length + 1)).any fun k =>
       decide (1 ≤ k) && (r.take k).all isWs &&
         (let r2 := r.drop k
          (List.range (r2.length + 1)).any fun j =>
            decide (1 ≤ j) && (r2.take j).all isTChar &&
              (r2.drop j).all fun c => !(c == '\n')))

/-- The substring of `s` after its final `sep`; the whole of `s` when `sep`
does not occur.  (Claim C4's description of the table-name selection.) -/
def afterLastSep (sep : Char) (s : Str) : Str :=
  (s.reverse.takeWhile (fun c => !(c == sep))).reverse

/-- An error is a missing-fields error (used to state that the validator
emitted no missing-fields error for a declaration). -/
def isMissingErr : VErr → Bool
  | .missingFields _ _ _ => true
  | .couldNotExtract _ _ => false

theorem ciPrefixB_length {p s : Str} (h : ciPrefixB p s = true) :
    p.length ≤ s.length := by
  induction p generalizing s with
  | nil => simp
  | cons a p ih =>
    cases s with
    | nil => simp [ciPrefixB] at h
    | cons b s =>
      simp only [ciPrefixB, Bool.and_eq_true] at h
      simpa [Nat.succ_le_succ_iff] using ih h.2

theorem tableMatchSplit_some {s m r : Str}
    (h : tableMatchSplit s = some (m, r)) :
    s = m ++ r ∧ 0 < m.length := by
  unfold tableMatchSplit at h
  split at h
  case isTrue h1 =>
    simp only at h
    split at h
    case isTrue => exact absurd h (by simp)
    case isFalse h2 =>
      rw [Option.some.injEq, Prod.mk.injEq] at h
      obtain ⟨hm, hr⟩ := h
      have hw : ¬ ((s.drop 5).takeWhile isWs).isEmpty = true := by
        intro hc
        exact h2 (by simp [hc])
      rw [List.isEmpty_iff] at hw
      constructor
      · rw [← hm, ← hr]
        rw [List.append_assoc, List.takeWhile_append_dropWhile,
          List.append_assoc, List.takeWhile_append_dropWhile,
          List.append_assoc, List.takeWhile_append_dropWhile,
          List.take_append_drop]
      · rw [← hm]
        have : 0 < ((s.drop 5).takeWhile isWs).length :=
          List.length_pos.mpr hw
        simp [List.length_append]
        omega
  case isFalse => exact absurd h (by simp)

example : scanTables "x table foo".data = ["table foo".data] := by decide

example : scanTables "TABLE *".data = ["TABLE *".data] := by decide

example : scanTables "TABLE".data = [] := by decide

example : scanTables "a TABLE A.B xx\nTABLE C rest".data
    = ["TABLE A.B xx".data, "TABLE C rest".data] := by decide

example : captureTableRef "TABLE SCHEMA.ORDERS, KEYCOLS (ID)".data
    = some "SCHEMA.ORDERS".data := by decide

example : extract_table_name "TABLE SCHEMA.ORDERS".data = "ORDERS".data := by
  decide

example : extract_table_name "table schema.orders".data = "ORDERS".data := by
  decide

example : extract_table_name "TABLE SCHEMA.".data = [] := by decide

example : extract_table_name "TABLE *".data = [] := by decide

example : extract_table_name "TABLE".data = [] := by decide

example : extract_table_name "TABLE ORDERS".data = "ORDERS".data := by decide

example : colexcFoundB "TABLE ORDERS\nCOLEXC SSN".data "SSN".data = true := by
  decide

example : colexcFoundB "TABLE ORDERS\nCOLEXC SSN".data "DOB".data = false := by
  decide

example : colexcFoundB "COLEXC SSN_MASKED".data "SSN".data = true := by decide

example : colexcFoundB "colexc x_ssn_y".data "SSN".data = true := by decide

example : colexcFoundB "COLEXC A,SSN".data "SSN".data = false := by decide

example : colexcFoundB "COLEXCSSN".data "SSN".data = false := by decide

example : get_exclude_fields
      (List.map (fun p => (p.1.data, p.2.data)) [("t","a"), ("T","b"), ("u","c")])
    = [("T".data, ["A".data, "B".data]), ("U".data, ["C".data])] := by decide

example : get_exclude_fields [("T".data,"A".data), ("T".data,"A".data)]
    = [("T".data, ["A".data, "A".data])] := by decide

example : validate_colexc_statements [("ORDERS".data, ["SSN".data, "DOB".data])]
      [("extract_1".data, "TABLE ORDERS".data, "TABLE ORDERS\nCOLEXC SSN".data)]
    = [.missingFields "extract_1".data "ORDERS".data ["DOB".data]] := by decide

example : validate_colexc_statements [("ORDERS".data, ["SSN".data])]
      [("e".data, "TABLE ORDERS".data, "TABLE ORDERS\nCOLEXC SSN_MASKED".data)]
    = [] := by decide

example : afterLastSep '.' "SCHEMA.ORDERS".data = "ORDERS".data := by decide

example : afterLastSep '.' "ORDERS".data = "ORDERS".data := by decide

example : afterLastSep '.' "A.B.".data = [] := by decide

example : claimShapeB "TABLE *".data = false := by decide

example : codeShapeB "TABLE *".data = true := by decide

example : claimShapeB "table x.y rest of line".data = true := by decide

theorem toNat_ofNat_valid {n : Nat} (h : n.isValidChar) : (Char.ofNat n).toNat = n := by
  rw [Char.ofNat, dif_pos h]
  rfl

theorem uint32_eq_of_toNat_eq {a b : UInt32} (h : a.toNat = b.toNat) : a = b := by
  cases a
  cases b
  simp only [UInt32.toNat] at h
  congr 1
  exact BitVec.eq_of_toNat_eq h

theorem char_eq_of_toNat_eq {a b : Char} (h : a.toNat = b.toNat) : a = b :=
  Char.ext (uint32_eq_of_toNat_eq h)

theorem toUpper_toNat (c : Char) :
    (Char.toUpper c).toNat =
      if 97 ≤ c.toNat ∧ c.toNat ≤ 122 then c.toNat - 32 else c.toNat := by
  simp only [Char.toUpper, ge_iff_le]
  split
  case isTrue h => exact toNat_ofNat_valid (Or.inl (by omega))
  case isFalse h => rfl

theorem toLower_toNat (c : Char) :
    (Char.toLower c).toNat =
      if 65 ≤ c.toNat ∧ c.toNat ≤ 90 then c.toNat + 32 else c.toNat := by
  simp only [Char.toLower, ge_iff_le]
  split
  case isTrue h => exact toNat_ofNat_valid (Or.inl (by omega))
  case isFalse h => rfl

theorem toUpper_idem (c : Char) : (Char.toUpper c).toUpper = Char.toUpper c := by
  apply char_eq_of_toNat_eq
  have h1 := toUpper_toNat c
  have h2 := toUpper_toNat (Char.toUpper c)
  rw [h1] at h2
  by_cases hq : 97 ≤ c.toNat ∧ c.toNat ≤ 122
  · rw [if_pos hq] at h1 h2
    rw [if_neg (by omega)] at h2
    omega
  · rw [if_neg hq] at h1 h2
    rw [if_neg hq] at h2
    omega

theorem pyUpper_idem (s : Str) : pyUpper (pyUpper s) = pyUpper s := by
  simp only [pyUpper, List.map_map]
  exact List.map_congr_left fun a _ => by simp only [Function.comp_apply, toUpper_idem]

theorem fieldsFor_addRow (em : EMap) (t t' f : Str) :
    fieldsFor (addRow t f em) t' =
      if t' = t then fieldsFor em t' ++ [f] else fieldsFor em t' := by
  induction em with
  | nil =>
    by_cases h : t' = t
    · subst h; simp [addRow, fieldsFor]
    · have h2 : ¬ t = t' := fun hc => h hc.symm
      simp [addRow, fieldsFor, h, h2]
  | cons p rest ih =>
    obtain ⟨k, fs⟩ := p
    simp only [addRow]
    by_cases hk : k = t
    · subst hk
      rw [if_pos rfl]
      by_cases h : t' = k
      · subst h; simp [fieldsFor]
      · have h2 : ¬ k = t' := fun hc => h hc.symm
        simp [fieldsFor, h, h2]
    · rw [if_neg hk]
      by_cases h : k = t'
      · have h2 : ¬ t' = t := fun hc => hk (h.trans hc)
        simp [fieldsFor, h, h2]
      · simp [fieldsFor, h, ih]

theorem gef_fields_aux (rows : List (Str × Str)) (em : EMap) (t : Str) :
    fieldsFor (rows.foldl (fun m row => addRow (pyUpper row.1) (pyUpper row.2) m) em) t
      = fieldsFor em t
        ++ (rows.filter fun r => pyUpper r.1 == t).map fun r => pyUpper r.2 := by
  induction rows generalizing em with
  | nil => simp
  | cons r rows ih =>
    simp only [List.foldl_cons, ih, fieldsFor_addRow, List.filter_cons]
    by_cases h : t = pyUpper r.1
    · simp [h, if_pos h, beq_iff_eq, List.append_assoc]
    · have h' : ¬ (pyUpper r.1 == t) = true := by
        simp [beq_iff_eq]
        exact fun hc => h hc.symm
      simp [h, h']

theorem addRow_upper {em : EMap} {t f : Str}
    (ht : pyUpper t = t) (hf : pyUpper f = f)
    (h : ∀ p ∈ em, pyUpper p.1 = p.1 ∧ ∀ g ∈ p.2, pyUpper g = g) :
    ∀ p ∈ addRow t f em, pyUpper p.1 = p.1 ∧ ∀ g ∈ p.2, pyUpper g = g := by
  induction em with
  | nil =>
    intro p hp
    simp only [addRow, List.mem_singleton] at hp
    subst hp
    exact ⟨ht, by simpa using hf⟩
  | cons q rest ih =>
    obtain ⟨k, fs⟩ := q
    simp only [addRow]
    by_cases hk : k = t
    · rw [if_pos hk]
      intro p hp
      rcases List.mem_cons.mp hp with hp | hp
      · subst hp
        refine ⟨(h (k, fs) (by simp)).1, ?_⟩
        intro g hg
        rcases List.mem_append.mp hg with hg | hg
        · exact (h (k, fs) (by simp)).2 g hg
        · rw [List.mem_singleton.mp hg]; exact hf
      · exact h p (List.mem_cons_of_mem _ hp)
    · rw [if_neg hk]
      intro p hp
      rcases List.mem_cons.mp hp with hp | hp
      · subst hp; exact h (k, fs) (by simp)
      · exact ih (fun q hq => h q (List.mem_cons_of_mem _ hq)) p hp

theorem gef_upper_aux (rows : List (Str × Str)) (em : EMap)
    (h : ∀ p ∈ em, pyUpper p.1 = p.1 ∧ ∀ g ∈ p.2, pyUpper g = g) :
    ∀ p ∈ rows.foldl (fun m row => addRow (pyUpper row.1) (pyUpper row.2) m) em,
      pyUpper p.1 = p.1 ∧ ∀ g ∈ p.2, pyUpper g = g := by
  induction rows generalizing em with
  | nil => simpa using h
  | cons r rows ih =>
    simp only [List.foldl_cons]
    exact ih _ (addRow_upper (pyUpper_idem r.1) (pyUpper_idem r.2) h)

/-- Claim C7 is false on the code: `get_exclude_fields` appends each row's
field name unconditionally, so duplicate `(table_name, field_name)` rows
produce a repeated field in the stored list — the field `A` occurs twice,
not at most once. -/
theorem C7_counterexample :
    fieldsFor (get_exclude_fields [("T".data, "A".data), ("T".data, "A".data)])
        "T".data
      = ["A".data, "A".data]
    ∧ (["A".data, "A".data].count "A".data) = 2 := by
  decide

/-- Claim C7 (amended): the ExclusionMap does not collapse duplicates —
for every query result set and table name, the list stored for that table
is exactly the upper-cased field names of the rows whose upper-cased table
name matches, in row order, duplicates preserved. -/
theorem C7_fields_exactly_row_fields (rows : List (Str × Str)) (t : Str) :
    fieldsFor (get_exclude_fields rows) t
      = (rows.filter fun r => pyUpper r.1 == t).map fun r => pyUpper r.2 := by
  have h := gef_fields_aux rows [] t
  simpa [get_exclude_fields, fieldsFor] using h

/-- Claim C8: every table-name key and every field name stored in the
ExclusionMap built by `get_exclude_fields` is upper-cased (upper-casing it
again is the identity), regardless of the casing of the input rows. -/
theorem C8_exclude_map_upper (rows : List (Str × Str)) (t : Str) (fs : List Str)
    (h : (t, fs) ∈ get_exclude_fields rows) :
    pyUpper t = t ∧ ∀ f ∈ fs, pyUpper f = f :=
  gef_upper_aux rows [] (by simp) (t, fs) h

/-- Witness for C8 at a concrete lower-cased result set. -/
theorem C8_exclude_map_upper_witness :
    pyUpper "TAB".data = "TAB".data ∧ ∀ f ∈ ["FLD".data], pyUpper f = f :=
  C8_exclude_map_upper [("tab".data, "fld".data)] "TAB".data ["FLD".data]
    (by decide)

/-- Claim C9 is false on the code as stated: with the hostname variable
missing but the HTTP-path and token variables present, the gate aborts
with exit code 1 but the printed listing still names
`DATABRICKS_HTTP_PATH` (and the token variable) — it is the fixed list of
all required variables, not a listing of which are missing. -/
theorem C9_counterexample :
    envGate none (some "x".data) (some "y".data) = .abort 1 missingEnvLines
    ∧ truthy (some "x".data) = true
    ∧ "   - DATABRICKS_HTTP_PATH".data ∈ missingEnvLines := by
  constructor
  · rfl
  · exact ⟨rfl, by simp [missingEnvLines]⟩

/-- Claim C9 (amended): if any of the three required environment variables
is missing (unset or empty), `main` aborts immediately with exit code 1,
printing the fixed four-line message that lists all three required
variable names. -/
theorem C9_env_gate (h p t : Option Str)
    (hm : truthy h = false ∨ truthy p = false ∨ truthy t = false) :
    envGate h p t = .abort 1 missingEnvLines := by
  unfold envGate
  rcases hm with hh | hh | hh <;> simp [hh]

/-- Witness for C9 at a concrete environment. -/
theorem C9_env_gate_witness :
    envGate (some [] : Option Str) (some "a".data) none = .abort 1 missingEnvLines :=
  C9_env_gate _ _ _ (Or.inl (by decide))

theorem takeWhile_length_eq {α} {p : α → Bool} {l : List α}
    (h : (l.takeWhile p).length = l.length) : l.takeWhile p = l := by
  induction l with
  | nil => rfl
  | cons a l ih =>
    rw [List.takeWhile_cons] at h ⊢
    by_cases hp : p a = true
    · rw [if_pos hp] at h ⊢
      simp only [List.length_cons, Nat.add_right_cancel_iff] at h
      rw [ih h]
    · rw [if_neg hp] at h
      simp at h

theorem takeWhile_all_eq {α} {p : α → Bool} {l : List α}
    (h : ∀ a ∈ l, p a = true) : l.takeWhile p = l := by
  induction l with
  | nil => rfl
  | cons a l ih =>
    rw [List.takeWhile_cons_of_pos (h a (by simp))]
    rw [ih fun a ha => h a (List.mem_cons_of_mem _ ha)]

theorem afterLastSep_not_mem {sep : Char} {s : Str} (hm : sep ∉ s) :
    afterLastSep sep s = s := by
  unfold afterLastSep
  rw [takeWhile_all_eq, List.reverse_reverse]
  intro a ha
  rw [List.mem_reverse] at ha
  simp only [Bool.not_eq_eq_eq_not, Bool.not_true, beq_eq_false_iff_ne, ne_eq]
  exact fun hc => hm (hc ▸ ha)

theorem afterLastSep_cons_mem {sep c : Char} {rest : Str} (hm : sep ∈ rest) :
    afterLastSep sep (c :: rest) = afterLastSep sep rest := by
  unfold afterLastSep
  simp only [List.reverse_cons]
  rw [List.takeWhile_append]
  have hlen : ¬ ((rest.reverse.takeWhile fun x => !(x == sep)).length
      = rest.reverse.length) := by
    intro hl
    have heq := takeWhile_length_eq hl
    have hmem : sep ∈ rest.reverse.takeWhile fun x => !(x == sep) := by
      rw [heq]
      simpa using hm
    have hall := List.all_takeWhile (l := rest.reverse) (p := fun x => !(x == sep))
    rw [List.all_eq_true] at hall
    have := hall _ hmem
    simp at this
  rw [if_neg hlen]

theorem pySplitAux_not_mem {sep : Char} {s : Str} (h : sep ∉ s) :
    pySplitAux sep s = (s, []) := by
  induction s with
  | nil => rfl
  | cons c rest ih =>
    have hc : ¬ (c == sep) = true := by
      simp only [beq_iff_eq]
      exact fun hcc => h (hcc ▸ List.mem_cons_self c rest)
    simp [pySplitAux, ih fun hmm => h (List.mem_cons_of_mem _ hmm), hc]

theorem pySplitAux_snd_ne_nil {sep : Char} {s : Str} (h : sep ∈ s) :
    (pySplitAux sep s).2 ≠ [] := by
  induction s with
  | nil => simp at h
  | cons c rest ih =>
    rcases haux : pySplitAux sep rest with ⟨p, ps⟩
    by_cases hc : c = sep
    · simp [pySplitAux, haux, hc]
    · have hm : sep ∈ rest := by
        rcases List.mem_cons.mp h with h1 | h1
        · exact absurd h1.symm hc
        · exact h1
      have hps := ih hm
      rw [haux] at hps
      have hcb : ¬ (c == sep) = true := by simpa using hc
      simp only [pySplitAux, haux, hcb]
      simpa using hps

theorem getLastD_ne_nil {α} {l : List α} (h : l ≠ []) (a b : α) :
    l.getLastD a = l.getLastD b := by
  cases l with
  | nil => exact absurd rfl h
  | cons x t =>
    rcases hq : (x :: t).getLast? with _ | y
    · rw [List.getLast?_eq_none_iff] at hq
      simp at hq
    · simp [List.getLastD_eq_getLast?, hq]

theorem getLastD_pySplit (sep : Char) (s : Str) :
    (pySplit sep s).getLastD [] = afterLastSep sep s := by
  induction s with
  | nil => rfl
  | cons c rest ih =>
    rcases haux : pySplitAux sep rest with ⟨p, ps⟩
    have hps : pySplit sep rest = p :: ps := by simp [pySplit, haux]
    rw [hps] at ih
    by_cases hc : c = sep
    · subst hc
      have hsplit : pySplit c (c :: rest) = [] :: p :: ps := by
        simp [pySplit, pySplitAux, haux]
      rw [hsplit]
      have hL : ([] :: p :: ps).getLastD ([] : Str) = (p :: ps).getLastD [] := by
        simp [List.getLastD_eq_getLast?]
      rw [hL, ih]
      by_cases hm : c ∈ rest
      · exact (afterLastSep_cons_mem hm).symm
      · rw [afterLastSep_not_mem hm]
        unfold afterLastSep
        simp only [List.reverse_cons]
        rw [List.takeWhile_append_of_pos (by
          intro a ha
          rw [List.mem_reverse] at ha
          simp only [Bool.not_eq_eq_eq_not, Bool.not_true, beq_eq_false_iff_ne,
            ne_eq]
          exact fun hcc => hm (hcc ▸ ha))]
        rw [List.takeWhile_cons_of_neg (by simp)]
        simp
    · have hcb : ¬ (c == sep) = true := by simpa using hc
      have hsplit : pySplit sep (c :: rest) = (c :: p) :: ps := by
        simp [pySplit, pySplitAux, haux, hcb]
      rw [hsplit]
      by_cases hm : sep ∈ rest
      · have hpsne : ps ≠ [] := by
          have := pySplitAux_snd_ne_nil hm
          rw [haux] at this
          simpa using this
        have hL : ((c :: p) :: ps).getLastD ([] : Str) = (p :: ps).getLastD [] := by
          cases ps with
          | nil => exact absurd rfl hpsne
          | cons q qs => simp [List.getLastD_eq_getLast?]
        rw [hL, ih]
        exact (afterLastSep_cons_mem hm).symm
      · have := pySplitAux_not_mem hm
        rw [haux, Prod.mk.injEq] at this
        obtain ⟨hp, hpsnil⟩ := this
        subst hpsnil
        rw [afterLastSep_not_mem (show sep ∉ c :: rest by
          intro hcc
          rcases List.mem_cons.mp hcc with h1 | h1
          · exact hc h1.symm
          · exact hm h1)]
        have hgl : ((c :: p) :: ([] : List Str)).getLastD [] = c :: p := by
          simp [List.getLastD_eq_getLast?]
        rw [hgl, hp]

/-- Claim C4: for every table-declaration statement from which a dotted
identifier is captured, the extracted table name is the upper-cased
substring of the identifier after its final dot when the identifier
contains a dot, and the upper-cased whole identifier otherwise; e.g.
`TABLE SCHEMA.ORDERS` yields `ORDERS`. -/
theorem C4_table_name_after_final_dot :
    (∀ s r, captureTableRef s = some r →
      ('.' ∈ r → extract_table_name s = pyUpper (afterLastSep '.' r)) ∧
      ('.' ∉ r → extract_table_name s = pyUpper r)) ∧
    extract_table_name "TABLE SCHEMA.ORDERS".data = "ORDERS".data := by
  constructor
  · intro s r hc
    constructor
    · intro hd
      simp only [extract_table_name, hc]
      rw [if_pos hd, getLastD_pySplit]
    · intro hd
      simp only [extract_table_name, hc]
      rw [if_neg hd]
  · decide

/-- Witness for C4 at `TABLE A.B`. -/
theorem C4_table_name_witness :
    captureTableRef "TABLE A.B".data = some "A.B".data ∧
    extract_table_name "TABLE A.B".data = pyUpper (afterLastSep '.' "A.B".data) :=
  ⟨by decide, (C4_table_name_after_final_dot.1 _ _ (by decide)).1 (by decide)⟩

/-- Claim C6: a declaration whose statement yields no captured identifier
records one could-not-extract error for that declaration and skips all
further exclusion checks for it — the remaining declarations are processed
unchanged, and the (total) function does not fail. -/
theorem C6_no_capture_error (em : EMap) (en ts fc : Str) (rest : List TableDecl)
    (h : captureTableRef ts = none) :
    validate_colexc_statements em ((en, ts, fc) :: rest)
      = .couldNotExtract en ts :: validate_colexc_statements em rest := by
  have hname : extract_table_name ts = [] := by
    simp only [extract_table_name, h]
  simp [validate_colexc_statements, hname]

/-- Witness for C6 at the bare statement `TABLE`. -/
theorem C6_no_capture_witness :
    validate_colexc_statements [("ORDERS".data, ["SSN".data])]
        [("E".data, "TABLE".data, "TABLE".data)]
      = [.couldNotExtract "E".data "TABLE".data] := by
  simpa using C6_no_capture_error [("ORDERS".data, ["SSN".data])]
    "E".data "TABLE".data "TABLE".data [] (by decide)

/-- Claim C10: a captured dotted identifier ending in a dot (e.g.
`TABLE SCHEMA.`) yields the empty extracted table name, and the Rule
Matcher treats the declaration as a could-not-extract error instead of
looking the empty name up in the ExclusionMap. -/
theorem C10_trailing_dot (em : EMap) (en ts fc : Str) (rest : List TableDecl)
    (r : Str) (hc : captureTableRef ts = some r) (hd : r.getLast? = some '.') :
    extract_table_name ts = [] ∧
    validate_colexc_statements em ((en, ts, fc) :: rest)
      = .couldNotExtract en ts :: validate_colexc_statements em rest := by
  have hmem : '.' ∈ r := List.mem_of_getLast?_eq_some hd
  have hafter : afterLastSep '.' r = [] := by
    unfold afterLastSep
    have hh : r.reverse.head? = some '.' := by
      rw [List.head?_reverse]
      exact hd
    cases hrev : r.reverse with
    | nil => simp [hrev] at hh
    | cons a t =>
      rw [hrev] at hh
      simp only [List.head?_cons, Option.some.injEq] at hh
      subst hh
      rw [List.takeWhile_cons_of_neg (by simp)]
      rfl
  have hname : extract_table_name ts = [] := by
    simp only [extract_table_name, hc]
    rw [if_pos hmem, getLastD_pySplit, hafter]
    rfl
  exact ⟨hname, by simp [validate_colexc_statements, hname]⟩

/-- Witness for C10 at `TABLE SCHEMA.`. -/
theorem C10_trailing_dot_witness :
    extract_table_name "TABLE SCHEMA.".data = [] ∧
    validate_colexc_statements [("ORDERS".data, ["SSN".data])]
        [("E2".data, "TABLE SCHEMA.".data, "TABLE SCHEMA.".data)]
      = [.couldNotExtract "E2".data "TABLE SCHEMA.".data] := by
  have h := C10_trailing_dot [("ORDERS".data, ["SSN".data])] "E2".data
    "TABLE SCHEMA.".data "TABLE SCHEMA.".data [] "SCHEMA.".data
    (by decide) (by decide)
  simpa using h

mutual
/-- The code's walk equals "collect every reachable string, then match":
value case. -/
theorem fts_eq_strings (en : Str) :
    ∀ v : JValue, findTableStatements en v
      = (stringsUnder v).flatMap fun s =>
          (scanTables s).map fun m => (en, pyStrip m, s)
  | .str s => by simp [findTableStatements, stringsUnder]
  | .prim => by simp [findTableStatements, stringsUnder]
  | .arr xs => by
    simp only [findTableStatements, stringsUnder]
    exact fts_eq_stringsL en xs
  | .obj fs => by
    simp only [findTableStatements, stringsUnder]
    exact fts_eq_stringsO en fs
/-- Array case of `fts_eq_strings`. -/
theorem fts_eq_stringsL (en : Str) :
    ∀ xs : JList, findTableStatementsL en xs
      = (stringsUnderL xs).flatMap fun s =>
          (scanTables s).map fun m => (en, pyStrip m, s)
  | .nil => by simp [findTableStatementsL, stringsUnderL]
  | .cons v rest => by
    simp only [findTableStatementsL, stringsUnderL, List.flatMap_append]
    rw [fts_eq_strings en v, fts_eq_stringsL en rest]
/-- Object case of `fts_eq_strings`. -/
theorem fts_eq_stringsO (en : Str) :
    ∀ fs : JObj, findTableStatementsO en fs
      = (stringsUnderO fs).flatMap fun s =>
          (scanTables s).map fun m => (en, pyStrip m, s)
  | .nil => by simp [findTableStatementsO, stringsUnderO]
  | .cons _ v rest => by
    simp only [findTableStatementsO, stringsUnderO, List.flatMap_append]
    rw [fts_eq_strings en v, fts_eq_stringsO en rest]
end

/-- Claim C2: the Statement Extractor produces, per extract entry, one
TableDeclaration per pattern match per string value reachable anywhere
under that entry's `config` substructure, carrying the extract's name (or
the placeholder) and the complete original string as context; each
reachable string is searched exactly once (the equality below leaves no
room for the duplicate tuples the dead `config_sections` code would have
produced), and an extract with an absent or empty `config` contributes
zero declarations. -/
theorem C2_extractor_refines_walk :
    (∀ cfg : ExtractCfg, extract_table_configs cfg = specTableDecls cfg) ∧
    (∀ nm : Option Str,
      extract_table_configs ⟨[⟨nm, none⟩]⟩ = [] ∧
      extract_table_configs ⟨[⟨nm, some (.obj .nil)⟩]⟩ = []) := by
  constructor
  · intro cfg
    unfold extract_table_configs specTableDecls
    exact congrArg (fun f => cfg.extracts.flatMap f)
      (funext fun e => fts_eq_strings (nameD e) (configD e))
  · intro nm
    constructor <;> rfl

theorem ciPrefixB_take_append {p s : Str} (h : ciPrefixB p s = true) (t : Str) :
    ciPrefixB p (s.take p.length ++ t) = true := by
  induction p generalizing s t with
  | nil => rfl
  | cons a p ih =>
    cases s with
    | nil => simp [ciPrefixB] at h
    | cons b s =>
      simp only [ciPrefixB, Bool.and_eq_true] at h
      simp only [List.length_cons, List.take_succ_cons, List.cons_append,
        ciPrefixB, Bool.and_eq_true]
      exact ⟨h.1, ih h.2 t⟩

theorem tableMatchSplit_parts {s m r : Str}
    (h : tableMatchSplit s = some (m, r)) :
    ∃ w idp rest,
      ciPrefixB tKW s = true ∧
      w = (s.drop 5).takeWhile isWs ∧
      idp = ((s.drop 5).dropWhile isWs).takeWhile isTChar ∧
      rest = (((s.drop 5).dropWhile isWs).dropWhile isTChar).takeWhile
        (fun c => !(c == '\n')) ∧
      w ≠ [] ∧ idp ≠ [] ∧
      m = s.take 5 ++ w ++ idp ++ rest := by
  unfold tableMatchSplit at h
  split at h
  case isTrue h1 =>
    simp only at h
    split at h
    case isTrue => exact absurd h (by simp)
    case isFalse h2 =>
      rw [Option.some.injEq, Prod.mk.injEq] at h
      refine ⟨_, _, _, h1, rfl, rfl, rfl, ?_, ?_, h.1.symm⟩
      · intro hc; exact h2 (by simp [hc])
      · intro hc; exact h2 (by simp [hc])
  case isFalse => exact absurd h (by simp)

theorem tableMatchSplit_codeShape {s m r : Str}
    (h : tableMatchSplit s = some (m, r)) : codeShapeB m = true := by
  obtain ⟨w, idp, rest, h1, hw, hidp, hrest, hwne, hidpne, hm⟩ :=
    tableMatchSplit_parts h
  have h5 : tKW.length = 5 := rfl
  have hslen : 5 ≤ s.length := by
    have := ciPrefixB_length h1
    omega
  have hlen5 : (s.take 5).length = 5 := by
    simp [List.length_take]
    omega
  have hm' : m = s.take 5 ++ (w ++ (idp ++ rest)) := by
    rw [hm]
    simp [List.append_assoc]
  have hdrop : m.drop 5 = w ++ (idp ++ rest) := by
    rw [hm']
    exact List.drop_left' hlen5
  simp only [codeShapeB, Bool.and_eq_true]
  constructor
  · rw [hm']
    have := ciPrefixB_take_append h1 (w ++ (idp ++ rest))
    rw [h5] at this
    exact this
  · rw [List.any_eq_true]
    refine ⟨w.length, List.mem_range.mpr ?_, ?_⟩
    · rw [hdrop]
      simp [List.length_append]
      omega
    · have htake : (m.drop 5).take w.length = w := by
        rw [hdrop]
        exact List.take_left w _
      have hdrop2 : (m.drop 5).drop w.length = idp ++ rest := by
        rw [hdrop]
        exact List.drop_left w _
      simp only [Bool.and_eq_true, decide_eq_true_eq]
      refine ⟨⟨Nat.succ_le_of_lt (List.length_pos.mpr hwne), ?_⟩, ?_⟩
      · rw [htake, hw]
        exact List.all_takeWhile
      · rw [List.any_eq_true]
        refine ⟨idp.length, List.mem_range.mpr ?_, ?_⟩
        · rw [hdrop2]
          simp [List.length_append]
          omega
        · have htake2 : ((m.drop 5).drop w.length).take idp.length = idp := by
            rw [hdrop2]
            exact List.take_left idp _
          have hdrop3 : ((m.drop 5).drop w.length).drop idp.length = rest := by
            rw [hdrop2]
            exact List.drop_left idp _
          simp only [Bool.and_eq_true, decide_eq_true_eq]
          refine ⟨⟨Nat.succ_le_of_lt (List.length_pos.mpr hidpne), ?_⟩, ?_⟩
          · rw [htake2, hidp]
            exact List.all_takeWhile
          · rw [hdrop3, hrest]
            exact List.all_takeWhile

theorem scanGo_shape : ∀ (fuel : Nat) (s : Str), ∀ m ∈ scanGo fuel s,
    codeShapeB m = true := by
  intro fuel
  induction fuel with
  | zero =>
    intro s m hm
    cases s <;> simp [scanGo] at hm
  | succ fuel ih =>
    intro s m hm
    cases s with
    | nil => simp [scanGo] at hm
    | cons c rest =>
      simp only [scanGo] at hm
      rcases hsplit : tableMatchSplit (c :: rest) with _ | ⟨m', r⟩
      · rw [hsplit] at hm
        exact ih rest m hm
      · rw [hsplit] at hm
        rcases List.mem_cons.mp hm with h1 | h1
        · subst h1
          exact tableMatchSplit_codeShape hsplit
        · exact ih r m h1

theorem scanGo_ne_nil : ∀ (fuel : Nat) (s : Str) (i : Nat), s.length ≤ fuel →
    tableMatchSplit (s.drop i) ≠ none → scanGo fuel s ≠ [] := by
  intro fuel
  induction fuel with
  | zero =>
    intro s i hlen hm
    have hs : s = [] := List.length_eq_zero.mp (Nat.le_zero.mp hlen)
    subst hs
    exact absurd (by rw [List.drop_nil]; decide) hm
  | succ fuel ih =>
    intro s i hlen hm
    cases s with
    | nil => exact absurd (by rw [List.drop_nil]; decide) hm
    | cons c rest =>
      simp only [scanGo]
      rcases hsplit : tableMatchSplit (c :: rest) with _ | ⟨m', r⟩
      · cases i with
        | zero =>
          rw [List.drop_zero] at hm
          exact absurd hsplit hm
        | succ i' =>
          exact ih rest i' (by simpa using Nat.le_of_succ_le_succ hlen)
            (by simpa [List.drop_succ_cons] using hm)
      · exact List.cons_ne_nil _ _

/-- Claim C5 is false on the code: the character class of the
TABLE-statement pattern is `[\w\.\*]`, which also accepts the asterisk, so
the wildcard statement `TABLE *` is matched although it has no decomposition
into keyword, whitespace, a dotted identifier of letters/digits/underscore/dot
only, and a line remainder. -/
theorem C5_counterexample :
    scanTables "TABLE *".data = ["TABLE *".data] ∧
    claimShapeB "TABLE *".data = false := by
  decide

/-- Claim C5 (amended): every substring the Statement Extractor matches
consists of the table-declaration keyword (case-insensitively), whitespace,
a non-empty run of characters from letters/digits/underscore/dot/asterisk,
then the remainder of that line (no newline); matching is case-insensitive
and succeeds for the keyword appearing anywhere within the string (a
position at which the pattern matches forces at least one emitted match,
as in the lower-case mid-string example). -/
theorem C5_match_shape :
    (∀ s : Str, ∀ m ∈ scanTables s, codeShapeB m = true) ∧
    (∀ (s : Str) (i : Nat), tableMatchSplit (s.drop i) ≠ none →
      scanTables s ≠ []) ∧
    scanTables "x table foo".data = ["table foo".data] := by
  refine ⟨?_, ?_, by decide⟩
  · intro s m hm
    exact scanGo_shape s.length s m hm
  · intro s i h
    exact scanGo_ne_nil s.length s i (Nat.le_refl _) h

/-- Witness for C5 at concrete strings. -/
theorem C5_match_shape_witness :
    codeShapeB "table foo".data = true ∧ scanTables "a TABLE B.c".data ≠ [] :=
  ⟨C5_match_shape.1 "x table foo".data "table foo".data (by decide),
   C5_match_shape.2.1 "a TABLE B.c".data 2 (by decide)⟩

theorem char_eq_iff_toNat {a b : Char} : a = b ↔ a.toNat = b.toNat :=
  ⟨fun h => h ▸ rfl, char_eq_of_toNat_eq⟩

theorem ciEq_symm {a b : Char} (h : ciEq a b = true) : ciEq b a = true := by
  simp only [ciEq, beq_iff_eq] at h ⊢
  exact h.symm

theorem isExcChar_toNat (c : Char) : isExcChar c = true ↔
    (c.toNat ≠ 44 ∧ c.toNat ≠ 32 ∧ c.toNat ≠ 9 ∧ c.toNat ≠ 10 ∧
     c.toNat ≠ 13 ∧ c.toNat ≠ 11 ∧ c.toNat ≠ 12) := by
  have h1 : (',' : Char).toNat = 44 := rfl
  have h2 : (' ' : Char).toNat = 32 := rfl
  have h3 : ('\t' : Char).toNat = 9 := rfl
  have h4 : ('\n' : Char).toNat = 10 := rfl
  have h5 : ('\r' : Char).toNat = 13 := rfl
  have h6 : ('\x0b' : Char).toNat = 11 := rfl
  have h7 : ('\x0c' : Char).toNat = 12 := rfl
  simp only [isExcChar, isWs, Bool.and_eq_true, Bool.not_eq_eq_eq_not,
    Bool.not_true, Bool.or_eq_false_iff, beq_eq_false_iff_ne, ne_eq,
    char_eq_iff_toNat, h1, h2, h3, h4, h5, h6, h7]
  tauto

theorem ciEq_excChar {a b : Char} (h : ciEq a b = true)
    (hb : isExcChar b = true) : isExcChar a = true := by
  have hl : a.toLower = b.toLower := by
    simpa [ciEq, beq_iff_eq] using h
  have hln : (Char.toLower a).toNat = (Char.toLower b).toNat := by rw [hl]
  rw [toLower_toNat, toLower_toNat] at hln
  rw [isExcChar_toNat] at hb ⊢
  by_cases ha : 65 ≤ a.toNat ∧ a.toNat ≤ 90
  · rw [if_pos ha] at hln
    by_cases hbb : 65 ≤ b.toNat ∧ b.toNat ≤ 90
    · rw [if_pos hbb] at hln
      omega
    · rw [if_neg hbb] at hln
      omega
  · rw [if_neg ha] at hln
    by_cases hbb : 65 ≤ b.toNat ∧ b.toNat ≤ 90
    · rw [if_pos hbb] at hln
      omega
    · rw [if_neg hbb] at hln
      omega

theorem ciPrefixB_take {p s : Str} (h : ciPrefixB p s = true) :
    ciPrefixB p (s.take p.length) = true := by
  induction p generalizing s with
  | nil => rfl
  | cons a p ih =>
    cases s with
    | nil => simp [ciPrefixB] at h
    | cons b s =>
      simp only [ciPrefixB, Bool.and_eq_true] at h
      simp only [List.length_cons, List.take_succ_cons, ciPrefixB,
        Bool.and_eq_true]
      exact ⟨h.1, ih h.2⟩

theorem ciPrefixB_of_take {p s : Str} {n : Nat}
    (h : ciPrefixB p (s.take n) = true) : ciPrefixB p s = true := by
  induction p generalizing s n with
  | nil => rfl
  | cons a p ih =>
    cases s with
    | nil =>
      rw [List.take_nil] at h
      simp [ciPrefixB] at h
    | cons b s =>
      cases n with
      | zero => simp [ciPrefixB] at h
      | succ n =>
        simp only [List.take_succ_cons, ciPrefixB, Bool.and_eq_true] at h ⊢
        exact ⟨h.1, ih h.2⟩

theorem all_take {α} {p : α → Bool} {l : List α} (h : l.all p = true)
    (n : Nat) : (l.take n).all p = true := by
  rw [List.all_eq_true] at h ⊢
  intro a ha
  exact h a (List.mem_of_mem_take ha)

theorem ciPrefixB_all_excChar {p s : Str} (h : ciPrefixB p s = true)
    (hp : ∀ c ∈ p, isExcChar c = true) :
    (s.take p.length).all isExcChar = true := by
  induction p generalizing s with
  | nil => simp
  | cons a p ih =>
    cases s with
    | nil => simp [ciPrefixB] at h
    | cons b s =>
      simp only [ciPrefixB, Bool.and_eq_true] at h
      simp only [List.length_cons, List.take_succ_cons, List.all_cons,
        Bool.and_eq_true]
      refine ⟨ciEq_excChar (ciEq_symm h.1) (hp a (by simp)), ?_⟩
      exact ih h.2 fun c hc => hp c (List.mem_cons_of_mem _ hc)

theorem colexcFound_to_spec (fc field : Str) (hfield : ∀ c ∈ field, isExcChar c = true)
    (hfound : colexcFoundB fc field = true) : specColexcPresent fc field := by
  simp only [colexcFoundB, List.any_eq_true, List.mem_range] at hfound
  obtain ⟨i, hilt, hat⟩ := hfound
  simp only [colexcAt, Bool.and_eq_true, List.any_eq_true, List.mem_range,
    decide_eq_true_eq] at hat
  obtain ⟨hciC, k, hklt, ⟨hk1, hkws⟩, m, hmlt, hexc, hcip⟩ := hat
  have e1 : List.drop 6 (List.drop i fc) = fc.drop (i + 6) := List.drop_drop 6 i fc
  have e2 : List.drop k (fc.drop (i + 6)) = fc.drop (i + 6 + k) :=
    List.drop_drop k (i + 6) fc
  rw [e1] at hklt hkws hmlt hexc hcip
  rw [e2] at hmlt hexc hcip
  have h6 := ciPrefixB_length hciC
  rw [show cKW.length = 6 from rfl, List.length_drop] at h6
  rw [List.length_drop] at hklt
  refine ⟨i, k, m + field.length, hk1, by omega, hciC, hkws, ?_, ⟨m, ?_⟩⟩
  · rw [List.take_add, List.all_append, Bool.and_eq_true]
    exact ⟨hexc, ciPrefixB_all_excChar hcip hfield⟩
  · rw [List.drop_take]
    simp only [Nat.add_sub_cancel_left]
    exact ciPrefixB_take hcip

theorem spec_to_colexcFound (fc field : Str)
    (hspec : specColexcPresent fc field) : colexcFoundB fc field = true := by
  obtain ⟨i, k, m', hk1, hbound, hciC, hws, hexc, j, hsub⟩ := hspec
  simp only [colexcFoundB, List.any_eq_true, List.mem_range]
  have h6 := ciPrefixB_length hciC
  rw [show cKW.length = 6 from rfl, List.length_drop] at h6
  refine ⟨i, by omega, ?_⟩
  simp only [colexcAt, Bool.and_eq_true, List.any_eq_true, List.mem_range,
    decide_eq_true_eq]
  have e1 : List.drop 6 (List.drop i fc) = fc.drop (i + 6) := List.drop_drop 6 i fc
  rw [e1]
  refine ⟨hciC, k, ?_, ⟨hk1, hws⟩, ?_⟩
  · rw [List.length_drop]
    omega
  · have e2 : List.drop k (fc.drop (i + 6)) = fc.drop (i + 6 + k) :=
      List.drop_drop k (i + 6) fc
    rw [e2]
    by_cases hfe : field = []
    · subst hfe
      exact ⟨0, by omega, by simp, rfl⟩
    · have hflen : 1 ≤ field.length := by
        cases field with
        | nil => exact absurd rfl hfe
        | cons a t => simp
      have hlenf := ciPrefixB_length hsub
      rw [List.length_drop, List.length_take] at hlenf
      refine ⟨j, ?_, ?_, ?_⟩
      · rw [List.length_drop] at hlenf ⊢
        omega
      · have hj : j ≤ m' := by
          rw [List.length_drop] at hlenf
          omega
        have ht : (fc.drop (i + 6 + k)).take j
            = ((fc.drop (i + 6 + k)).take m').take j := by
          rw [List.take_take, Nat.min_eq_left hj]
        rw [ht]
        exact all_take hexc j
      · have ht : ((fc.drop (i + 6 + k)).take m').drop j
            = ((fc.drop (i + 6 + k)).drop j).take (m' - j) :=
          List.drop_take m' j _
        rw [ht] at hsub
        exact ciPrefixB_of_take hsub

/-- Claim C3: for every required field whose characters are themselves
non-comma/non-whitespace (true of ordinary field names) and every context,
the Rule Matcher counts the field as present exactly when the context
contains the exclusion keyword, whitespace, then a run of
non-comma/non-whitespace characters containing the field name as a
case-insensitive substring; in particular a context containing
`COLEXC SSN_MASKED` satisfies a requirement for field `SSN`, so no error
is reported for `SSN`. -/
theorem C3_field_present_iff :
    (∀ fc field : Str, (∀ c ∈ field, isExcChar c = true) →
      (colexcFoundB fc field = true ↔ specColexcPresent fc field)) ∧
    validate_colexc_statements [("ORDERS".data, ["SSN".data])]
        [("e".data, "TABLE ORDERS".data,
          "TABLE ORDERS\nCOLEXC SSN_MASKED".data)]
      = [] := by
  refine ⟨?_, by decide⟩
  intro fc field hfield
  exact ⟨colexcFound_to_spec fc field hfield, spec_to_colexcFound fc field⟩

/-- Witness for C3 at field `SSN` and a context containing
`COLEXC SSN_MASKED`. -/
theorem C3_field_present_witness :
    colexcFoundB "COLEXC SSN_MASKED".data "SSN".data = true ↔
      specColexcPresent "COLEXC SSN_MASKED".data "SSN".data :=
  C3_field_present_iff.1 "COLEXC SSN_MASKED".data "SSN".data (by decide)

theorem validate_cons (em : EMap) (d : TableDecl) (rest : List TableDecl) :
    validate_colexc_statements em (d :: rest)
      = validate_colexc_statements em [d]
        ++ validate_colexc_statements em rest := by
  obtain ⟨en, ts, fc⟩ := d
  simp only [validate_colexc_statements]
  split_ifs <;> simp

theorem missingColexcOf_eq_filter (fc : Str) (l : List Str) :
    missingColexcOf fc l = l.filter fun f => !(colexcFoundB fc f) := by
  induction l with
  | nil => rfl
  | cons f rest ih =>
    simp only [missingColexcOf, List.filter_cons]
    by_cases h : colexcFoundB fc f = true
    · simp [h, ih]
    · simp only [Bool.not_eq_true] at h
      simp [h, ih]

theorem mem_missingColexcOf {fc f : Str} {l : List Str} :
    f ∈ missingColexcOf fc l ↔ f ∈ l ∧ colexcFoundB fc f = false := by
  rw [missingColexcOf_eq_filter, List.mem_filter]
  simp

/-- Claim C1 is false exactly as stated: with the pathological ExclusionMap
whose key is the empty string and the declaration `TABLE SCHEMA.`, the
extracted table name (the empty string) is a key of the map and the
required field SSN has no exclusion match, yet the single emitted error is
a could-not-extract error, not a one listing the missing field SSN. -/
theorem C1_counterexample :
    extract_table_name "TABLE SCHEMA.".data ∈ keysOf [(([] : Str), ["SSN".data])]
    ∧ colexcFoundB "TABLE SCHEMA.".data "SSN".data = false
    ∧ validate_colexc_statements [(([] : Str), ["SSN".data])]
        [("E".data, "TABLE SCHEMA.".data, "TABLE SCHEMA.".data)]
      = [.couldNotExtract "E".data "TABLE SCHEMA.".data]
    ∧ (∀ e ∈ validate_colexc_statements [(([] : Str), ["SSN".data])]
        [("E".data, "TABLE SCHEMA.".data, "TABLE SCHEMA.".data)],
        isMissingErr e = false) := by
  decide

/-- Claim C1 (amended): restricted to declarations whose extracted table
name is non-empty (a failed extraction instead yields a could-not-extract
error, claims C6/C10), the validator emits errors declaration by
declaration; a declaration whose table name is a key of the ExclusionMap
and has at least one required field with no exclusion match contributes
exactly one error listing exactly the required fields with no match (in
order); a declaration with every required field matched, or whose table
name is not a key, contributes no error; in the ORDERS/SSN/DOB example the
only error names missing field DOB. -/
theorem C1_one_error_per_declaration :
    (∀ (em : EMap) (tcs : List TableDecl),
      validate_colexc_statements em tcs
        = tcs.flatMap fun d => validate_colexc_statements em [d]) ∧
    (∀ (em : EMap) (en ts fc : Str),
      extract_table_name ts ≠ [] →
      (extract_table_name ts ∈ keysOf em →
        ((∃ f ∈ fieldsFor em (extract_table_name ts),
            colexcFoundB fc f = false) →
          validate_colexc_statements em [(en, ts, fc)]
            = [.missingFields en (extract_table_name ts)
                (missingColexcOf fc (fieldsFor em (extract_table_name ts)))]) ∧
        ((∀ f ∈ fieldsFor em (extract_table_name ts),
            colexcFoundB fc f = true) →
          validate_colexc_statements em [(en, ts, fc)] = []) ∧
        (∀ f, f ∈ missingColexcOf fc (fieldsFor em (extract_table_name ts)) ↔
          (f ∈ fieldsFor em (extract_table_name ts) ∧
            colexcFoundB fc f = false))) ∧
      (extract_table_name ts ∉ keysOf em →
        validate_colexc_statements em [(en, ts, fc)] = [])) ∧
    validate_colexc_statements [("ORDERS".data, ["SSN".data, "DOB".data])]
        [("extract_1".data, "TABLE ORDERS".data,
          "TABLE ORDERS\nCOLEXC SSN".data)]
      = [.missingFields "extract_1".data "ORDERS".data ["DOB".data]] := by
  refine ⟨?_, ?_, by decide⟩
  · intro em tcs
    induction tcs with
    | nil => rfl
    | cons d rest ih =>
      rw [validate_cons, List.flatMap_cons, ih]
  · intro em en ts fc hne
    constructor
    · intro hmem
      refine ⟨?_, ?_, fun f => mem_missingColexcOf⟩
      · rintro ⟨f, hf, hnf⟩
        have hmiss_ne :
            missingColexcOf fc (fieldsFor em (extract_table_name ts)) ≠ [] := by
          intro hc
          have := mem_missingColexcOf.mpr ⟨hf, hnf⟩
          rw [hc] at this
          simp at this
        simp [validate_colexc_statements, hne, hmem, hmiss_ne]
      · intro hall
        have hmiss :
            missingColexcOf fc (fieldsFor em (extract_table_name ts)) = [] := by
          rw [missingColexcOf_eq_filter]
          rw [List.filter_eq_nil_iff]
          intro a ha
          simp [hall a ha]
        simp [validate_colexc_statements, hne, hmem, hmiss]
    · intro hnmem
      simp [validate_colexc_statements, hne, hnmem]

/-- Witness for C1 at the ORDERS example with an extra leading blob. -/
theorem C1_one_error_witness :
    validate_colexc_statements [("ORDERS".data, ["SSN".data, "DOB".data])]
        [("e2".data, "TABLE ORDERS".data, "x TABLE ORDERS\nCOLEXC SSN".data)]
      = [.missingFields "e2".data "ORDERS".data
          (missingColexcOf "x TABLE ORDERS\nCOLEXC SSN".data
            (fieldsFor [("ORDERS".data, ["SSN".data, "DOB".data])]
              "ORDERS".data))] :=
  ((C1_one_error_per_declaration.2.1 [("ORDERS".data, ["SSN".data, "DOB".data])]
      "e2".data "TABLE ORDERS".data "x TABLE ORDERS\nCOLEXC SSN".data
      (by decide)).1 (by decide)).1 ⟨"DOB".data, by decide, by decide⟩
